import Mathlib

/-!
Verification of the kvstore key/value note store.

This file gives a shallow embedding, in Lean 4, of the parts of the
program that the specification talks about:

* the shared entry model (`src/store.rs`: `Entry`, `for_update`,
  `set_ttl_minutes`, `extend_ttl_minutes`),
* the durable store (`src/db.rs`: the upsert SQL, `delete_entry`,
  `cleanup_expired_entries`, and the schema-version check of
  `initialize_schema`),
* the in-memory cache/index (`src/store.rs`: `Store`, `insert`, `remove`,
  `reset`, `search`, `normalize_tags`, `record_access`,
  `enable_recent_history`, `prune_recent`, `persist_recent`,
  `load_recent_history`).

Modelling conventions:

* Timestamps (`chrono::DateTime<Utc>`) are integers (seconds); a
  `chrono::Duration` of `m` minutes is the integer `60 * m`.  Where the
  source calls `Utc::now()`, the embedding takes `now` as an explicit
  argument.
* The SQLite `kv` table is an association list `List (String × Entry)`
  whose well-formedness invariant (key is the primary key) is key
  uniqueness.  A transaction that returns an error before `commit` leaves
  the table unchanged; the embedding of such an operation returns the
  unchanged list alongside the error.
* `HashMap<String, Entry>` is likewise an association list; `VecDeque` is
  a `List` (front = most recent).
* The recent-history side file is modelled as its list of lines
  (`List String`); a missing file is `none`.  `persist_recent` writes one
  key per line, so its observable effect is the list of keys written.
* The third-party fuzzy matcher is an opaque parameter
  `m : String → String → Option Int` (candidate, pattern ↦ score), as the
  specification treats it as a black box.
-/

namespace Kvstore

/-- Timestamps: seconds, as in `chrono::DateTime<Utc>` timelines. -/
abbrev Timestamp := Int

/-- `chrono::Duration::minutes m` as seconds. -/
def minutesDur (m : Nat) : Int := 60 * (m : Int)

/-- `chrono::Duration::hours 1` as seconds. -/
def oneHour : Int := 3600

/-- In-memory representation of a single entry (struct `Entry` in
`src/store.rs`). -/
structure Entry where
  value : String
  tags : List String
  created_at : Timestamp
  updated_at : Timestamp
  expires_at : Option Timestamp
deriving DecidableEq, Repr

namespace Entry

/-- `Entry::new` (`src/store.rs`), with `Utc::now()` passed explicitly. -/
def new (now : Timestamp) (value : String) (tags : List String) : Entry :=
  { value := value, tags := tags, created_at := now, updated_at := now,
    expires_at := none }

/-- `Entry::for_update` (`src/store.rs` lines 81-94): carries over
`created_at` and `expires_at` from the existing entry (if any) and stamps
`updated_at` with `now`. -/
def for_update (now : Timestamp) (existing : Option Entry) (value : String)
    (tags : List String) : Entry :=
  let created_at := match existing with
    | some e => e.created_at
    | none => now
  let expires_at := match existing with
    | some e => e.expires_at
    | none => none
  { value := value, tags := tags, created_at := created_at,
    updated_at := now, expires_at := expires_at }

/-- `Entry::set_ttl_minutes` (`src/store.rs`). -/
def set_ttl_minutes (now : Timestamp) (e : Entry) (ttl_minutes : Option Nat) :
    Entry :=
  { e with expires_at := ttl_minutes.map (fun m => now + minutesDur m) }

/-- `Entry::extend_ttl_minutes` (`src/store.rs` lines 134-141): the new
expiry is `max(expires_at, now) + ttl_minutes`, falling back to `now` when
there is no current expiry. -/
def extend_ttl_minutes (now : Timestamp) (e : Entry) (ttl_minutes : Nat) :
    Entry :=
  let base := match e.expires_at with
    | some expires_at => max expires_at now
    | none => now
  { e with expires_at := some (base + minutesDur ttl_minutes) }

end Entry

/-- Error taxonomy (`KvError` in `src/lib.rs`), restricted to the variants
the embedded operations produce. -/
inductive KvError where
  | NotFound (what : String)
  | InvalidInput (msg : String)
deriving DecidableEq, Repr

/-- The `kv` table: rows as (key, entry) pairs; `key` is the primary key,
so well-formed tables have pairwise-distinct keys. -/
abbrev DB := List (String × Entry)

/-- Key uniqueness: the `PRIMARY KEY` constraint on `kv.key`. -/
def DBWF (db : DB) : Prop := (db.map Prod.fst).Nodup

/-- `SELECT ... WHERE key = ?`: the row for `key`, if any. -/
def lookupDB (db : DB) (key : String) : Option Entry :=
  (db.find? (fun kv => kv.1 == key)).map Prod.snd

/-- The `DO UPDATE SET` clause of the upsert SQL in
`Database::execute_upsert` (`src/db.rs` lines 107-127): it overwrites
`value`, `tags`, `updated_at` and `expires_at` from the excluded row but
leaves the existing row's `created_at` alone. -/
def updateRow (old excluded : Entry) : Entry :=
  { old with value := excluded.value, tags := excluded.tags,
             updated_at := excluded.updated_at,
             expires_at := excluded.expires_at }

/-- `Database::execute_upsert` (`src/db.rs` lines 107-127):
`INSERT ... ON CONFLICT(key) DO UPDATE`.  When a row with the key exists,
the conflict clause updates it in place; otherwise a fresh row is
inserted. -/
def execute_upsert (db : DB) (key : String) (e : Entry) : DB :=
  if db.any (fun kv => kv.1 == key) then
    db.map (fun kv => if kv.1 == key then (kv.1, updateRow kv.2 e) else kv)
  else
    db ++ [(key, e)]

/-- `Database::delete_entry` (`src/db.rs` lines 84-93): deletes the
matching row in a transaction; if no row matched the transaction is
dropped without commit (state unchanged) and `NotFound` is returned.  The
result pairs the table after the call with the operation's outcome. -/
def delete_entry (db : DB) (key : String) : DB × Except KvError Unit :=
  let affected := db.countP (fun kv => kv.1 == key)
  if affected = 0 then
    (db, .error (KvError.NotFound key))
  else
    (db.filter (fun kv => !(kv.1 == key)), .ok ())

/-- The deletion predicate of `Database::cleanup_expired_entries`
(`src/db.rs` lines 179-191): the row has an expiry and it is at or before
`now` minus the one-hour grace window. -/
def expiredRow (now : Timestamp) (kv : String × Entry) : Bool :=
  match kv.2.expires_at with
  | some t => decide (t ≤ now - oneHour)
  | none => false

/-- `Database::cleanup_expired_entries` (`src/db.rs` lines 179-191):
deletes every expired row in one transaction and returns the surviving
table together with the number of rows deleted. -/
def cleanup_expired_entries (db : DB) (now : Timestamp) : DB × Nat :=
  (db.filter (fun kv => !(expiredRow now kv)), db.countP (expiredRow now))

/-- The state `Database::initialize_schema` (`src/db.rs` lines 129-177)
inspects and produces: the persisted `PRAGMA user_version` scalar and
whether a `kv` table already exists. -/
structure SchemaState where
  user_version : Int
  kv_table_exists : Bool
deriving DecidableEq, Repr

/-- Message of the legacy-database error in `src/db.rs`. -/
def legacyErr : KvError :=
  KvError.InvalidInput
    "unsupported legacy database detected; delete the database file to recreate it"

/-- Message of the version-mismatch error in `src/db.rs`. -/
def mismatchErr (v : Int) : KvError :=
  KvError.InvalidInput
    ("unsupported database schema version " ++ toString v ++
      "; delete the database file to recreate it")

/-- `Database::initialize_schema` (`src/db.rs` lines 129-177).  A stored
version of 0 with no `kv` table creates the fresh schema (stamping version
2); version 0 with a pre-existing table is the legacy error; version 2
opens as-is; any other version is the mismatch error.  An error is
returned before any table write, so the table is untouched on failure. -/
def init_schema (s : SchemaState) : Except KvError SchemaState :=
  if s.user_version = 0 then
    if s.kv_table_exists then
      .error legacyErr
    else
      .ok { user_version := 2, kv_table_exists := true }
  else if s.user_version = 2 then
    .ok s
  else
    .error (mismatchErr s.user_version)

/-- Whether an `Except` result is a success (`Result::is_ok`). -/
def exceptOk {ε α : Type} : Except ε α → Bool
  | .ok _ => true
  | .error _ => false

/-! ### The cache/index (`Store` in `src/store.rs`) -/

/-- `str::trim` on the character list: drop leading and trailing
whitespace. -/
def trimChars (l : List Char) : List Char :=
  List.rdropWhile Char.isWhitespace (List.dropWhile Char.isWhitespace l)

/-- `str::trim` on strings. -/
def rustTrim (s : String) : String := String.mk (trimChars s.data)

/-- Ordered-set insertion: the effect of `BTreeSet::insert` on the sorted
duplicate-free element list (an equal element is already present and the
set is unchanged).  Also models `Vec::binary_search` + `Vec::insert` on a
sorted key list. -/
def insertSorted (x : String) : List String → List String
  | [] => [x]
  | y :: ys =>
    if x < y then x :: y :: ys
    else if x = y then y :: ys
    else y :: insertSorted x ys

/-- One iteration of the `Store::normalize_tags` loop: trim the tag, drop
it when empty, otherwise insert it into the `BTreeSet`. -/
def normStep (set : List String) (tag : String) : List String :=
  let trimmed := rustTrim tag
  if trimmed = "" then set else insertSorted trimmed set

/-- `Store::normalize_tags` (`src/store.rs` lines 326-335): trim each tag,
drop the empties, collect into a `BTreeSet` (dedup + sort), return the
sorted list. -/
def normalize_tags (raw : List String) : List String :=
  raw.foldl normStep []

/-- First-occurrence deduplication, as performed by the `seen : HashSet`
passes in `load_recent_history` and `Store::prune_recent`: `seen` is the
set of keys already kept, and a key is kept exactly when `seen.insert`
reports it new. -/
def dedupFirstAux (seen : List String) : List String → List String
  | [] => []
  | x :: xs =>
    if x ∈ seen then dedupFirstAux seen xs
    else x :: dedupFirstAux (x :: seen) xs

/-- First-occurrence deduplication with an initially empty `seen` set. -/
def dedupFirst (l : List String) : List String := dedupFirstAux [] l

/-- Stable insertion preserving a `≤`-sorted order; models `Vec::sort` on
the key list via insertion sort. -/
def insertLe (x : String) : List String → List String
  | [] => [x]
  | y :: ys => if x ≤ y then x :: y :: ys else y :: insertLe x ys

/-- `Vec::sort` on a string list. -/
def sortStrings (l : List String) : List String := l.foldr insertLe []

/-- Cached entries plus pre-computed key ordering (struct `Store` in
`src/store.rs`).  `entries` models the `HashMap`, `recent` the `VecDeque`
(front = most recent).  The recent-history file path is external state;
the payload `persist_recent` would write is observed by
`persistPayload`. -/
structure Store where
  entries : List (String × Entry)
  search_keys : List String
  recent : List String
  recent_capacity : Nat
deriving DecidableEq, Repr

/-- `Store::RECENT_CAPACITY`. -/
def RECENT_CAPACITY : Nat := 50

namespace Store

/-- `HashMap::contains_key`. -/
def containsKey (s : Store) (key : String) : Bool :=
  s.entries.any (fun kv => kv.1 == key)

/-- `HashMap::get`. -/
def getEntry (s : Store) (key : String) : Option Entry :=
  (s.entries.find? (fun kv => kv.1 == key)).map Prod.snd

/-- `HashMap::insert` on the association list: replace the existing
binding or append a new one. -/
def insertMap (m : List (String × Entry)) (key : String) (e : Entry) :
    List (String × Entry) :=
  if m.any (fun kv => kv.1 == key) then
    m.map (fun kv => if kv.1 == key then (kv.1, e) else kv)
  else
    m ++ [(key, e)]

/-- `Store::from_entries` (`src/store.rs` lines 169-187). -/
def from_entries (entries : List (String × Entry)) : Store :=
  { entries := entries.foldl (fun m kv => insertMap m kv.1 kv.2) [],
    search_keys := sortStrings (entries.map Prod.fst),
    recent := [],
    recent_capacity := RECENT_CAPACITY }

/-- The payload written by `Store::persist_recent` (`src/store.rs` lines
552-583): the truncated deque, joined one key per line.  The file is
modelled as its list of lines, so this list-of-keys model coincides with
the real `"\n"`-joined file exactly for keys containing no newline — a
side condition the reload theorem assumes explicitly. -/
def persistPayload (s : Store) : List String :=
  s.recent.take s.recent_capacity

/-- `Store::prune_recent` (`src/store.rs` lines 585-598): drop recent keys
that no longer exist in the entry map, dedup by first occurrence, truncate
to capacity when over it, and re-persist. -/
def prune_recent (s : Store) : Store :=
  if s.recent = [] then s
  else
    let pruned := dedupFirst (s.recent.filter (fun k => s.containsKey k))
    let pruned :=
      if s.recent_capacity < pruned.length then pruned.take s.recent_capacity
      else pruned
    { s with recent := pruned }

/-- `Store::insert` (`src/store.rs` lines 201-210): a genuinely new key is
spliced into the sorted key list via binary search; the entry map binding
is replaced either way. -/
def insert (s : Store) (key : String) (e : Entry) : Store :=
  let search_keys :=
    if !(s.containsKey key) then
      if key ∈ s.search_keys then s.search_keys
      else insertSorted key s.search_keys
    else s.search_keys
  { s with entries := insertMap s.entries key e, search_keys := search_keys }

/-- `Store::remove` (`src/store.rs` lines 212-233): when the key was
present, drop it from the entry map, the sorted key list and the recent
deque, then prune the recent history. -/
def remove (s : Store) (key : String) : Store :=
  if s.containsKey key then
    prune_recent
      { s with entries := s.entries.filter (fun kv => !(kv.1 == key)),
               search_keys := s.search_keys.filter (fun k => !(k == key)),
               recent := s.recent.filter (fun k => !(k == key)) }
  else s

/-- `Store::reset` (`src/store.rs` lines 236-247): clear everything,
rebuild the entry map and sorted key list from the new data set, then
prune (and re-persist) the recent history. -/
def reset (s : Store) (entries : List (String × Entry)) : Store :=
  prune_recent
    { s with entries := entries.foldl (fun m kv => insertMap m kv.1 kv.2) [],
             search_keys := sortStrings (entries.map Prod.fst),
             recent := [] }

/-- `Store::record_access` (`src/store.rs` lines 337-346): no-op for a key
absent from the cache; otherwise move/push the key to the front, truncate
to capacity and persist. -/
def record_access (s : Store) (key : String) : Store :=
  if !(s.containsKey key) then s
  else
    { s with recent :=
        ((key :: s.recent.filter (fun k => !(k == key))).take s.recent_capacity) }

end Store

/-- `load_recent_history` (`src/store.rs` lines 497-528): read the side
file (modelled as its list of lines; `none` = missing or unreadable file,
both of which yield an empty history), trim each line, skip empties, and
dedup by first occurrence. -/
def load_recent_history (file : Option (List String)) (capacity : Nat) :
    List String :=
  if capacity = 0 then []
  else
    match file with
    | none => []
    | some contents =>
      dedupFirst ((contents.map rustTrim).filter (fun l => !(l == "")))

/-- `RecentConfig` (`src/store.rs` lines 530-549); `new` clamps the
capacity to at least 1. -/
structure RecentConfig where
  capacity : Nat
deriving DecidableEq, Repr

/-- `RecentConfig::new`. -/
def RecentConfig.new (capacity : Nat) : RecentConfig :=
  { capacity := max capacity 1 }

/-- `Store::enable_recent_history` (`src/store.rs` lines 353-358): adopt
the configured capacity, load the side file, and prune against the live
key set. -/
def Store.enable_recent_history (s : Store) (file : Option (List String))
    (config : RecentConfig) : Store :=
  Store.prune_recent
    { s with recent_capacity := config.capacity,
             recent := load_recent_history file config.capacity }

/-! ### Fuzzy search -/

/-- `SearchScope` (`src/store.rs` lines 150-155). -/
inductive SearchScope where
  | all
  | keysOnly
  | tagsOnly
deriving DecidableEq, Repr

/-- `matches_keys` (`src/store.rs` lines 489-491). -/
def matches_keys : SearchScope → Bool
  | .all => true
  | .keysOnly => true
  | .tagsOnly => false

/-- `matches_tags` (`src/store.rs` lines 493-495). -/
def matches_tags : SearchScope → Bool
  | .all => true
  | .keysOnly => false
  | .tagsOnly => true

/-- The third-party fuzzy matcher, as a black box:
`matcher.fuzzy_match(candidate, pattern)`. -/
abbrev Matcher := String → String → Option Int

/-- `Iterator::max` over scores. -/
def listMaxInt : List Int → Option Int
  | [] => none
  | x :: xs =>
    match listMaxInt xs with
    | none => some x
    | some m => some (max x m)

/-- `Option::max` for `Option<i64>` (Rust's `Ord` on `Option` puts `None`
below every `Some`). -/
def optionMax (a b : Option Int) : Option Int :=
  match a, b with
  | none, b => b
  | some x, none => some x
  | some x, some y => some (max x y)

/-- The per-entry score computation inside `Store::search`
(`src/store.rs` lines 269-291): a key score when the scope permits keys, a
maximal tag score when the scope permits tags, combined per scope. -/
def best_score (m : Matcher) (scope : SearchScope) (pattern key : String)
    (e : Entry) : Option Int :=
  let key_score := if matches_keys scope then m key pattern else none
  let tag_score :=
    if matches_tags scope then
      listMaxInt (e.tags.filterMap (fun tag => m tag pattern))
    else none
  match scope with
  | .all => optionMax key_score tag_score
  | .keysOnly => key_score
  | .tagsOnly => tag_score

/-- A scored candidate (struct `Scored` in `src/store.rs`). -/
structure Scored where
  score : Int
  key : String
  entry : Entry
deriving DecidableEq, Repr

/-- The scored-candidate collection loop of `Store::search`. -/
def scoredOf (s : Store) (m : Matcher) (scope : SearchScope)
    (pattern : String) : List Scored :=
  s.search_keys.filterMap (fun key =>
    match s.getEntry key with
    | none => none
    | some e =>
      match best_score m scope pattern key e with
      | none => none
      | some sc => some { score := sc, key := key, entry := e })

/-- Stable insertion for the descending-by-score order produced by
`scored.sort_by(|a, b| b.score.cmp(&a.score))`. -/
def insertByScore (x : Scored) : List Scored → List Scored
  | [] => [x]
  | y :: ys => if y.score < x.score then x :: y :: ys else y :: insertByScore x ys

/-- The stable descending sort in `Store::search`. -/
def sortByScoreDesc (l : List Scored) : List Scored :=
  l.foldr insertByScore []

/-- `Store::search` (`src/store.rs` lines 256-324): short-circuit on an
empty pattern or a zero limit, score every key in sorted-key order, sort
descending by score, truncate to `limit`, and strip the scores. -/
def Store.search (s : Store) (m : Matcher) (pattern : String) (limit : Nat)
    (scope : SearchScope) : List (String × Entry) :=
  if pattern = "" ∨ limit = 0 then []
  else
    ((sortByScoreDesc (scoredOf s m scope pattern)).take limit).map
      (fun x => (x.key, x.entry))

/-! ### Invariants and spec-side predicates -/

/-- The recent-history invariant stated by the specification: no duplicate
keys, and every key references a live cache entry. -/
def RecentInv (s : Store) : Prop :=
  s.recent.Nodup ∧ ∀ k ∈ s.recent, s.containsKey k = true

/-- Well-formedness of the cache key index, maintained by construction:
the sorted key list and the entry map mention exactly the same keys, each
once. -/
def Store.WFkeys (s : Store) : Prop :=
  s.search_keys.Nodup ∧ (s.entries.map Prod.fst).Nodup ∧
    s.search_keys.Perm (s.entries.map Prod.fst)

/-- An entry qualifies for a search when it has a fuzzy score under the
scope. -/
def qualifies (m : Matcher) (scope : SearchScope) (pattern : String)
    (kv : String × Entry) : Bool :=
  (best_score m scope pattern kv.1 kv.2).isSome

/-- The score the search attributes to a result row. -/
def resultScore (m : Matcher) (scope : SearchScope) (pattern : String)
    (kv : String × Entry) : Option Int :=
  best_score m scope pattern kv.1 kv.2

/-- A small concrete store used by witnesses. -/
def wStore : Store :=
  { entries := [("a", Entry.new 0 "A" []), ("b", Entry.new 0 "B" [])],
    search_keys := ["a", "b"], recent := [], recent_capacity := 1 }

/-- A concrete fuzzy matcher (exact match scores 1) used by witnesses. -/
def wMatcher : Matcher :=
  fun cand pat => if cand == pat then some 1 else none

/-- A store holding a key with leading whitespace, exhibiting the
recent-history reload failure for untrimmed keys. -/
def cStore : Store :=
  { entries := [(" a", Entry.new 0 "A" []), ("b", Entry.new 0 "B" [])],
    search_keys := [" a", "b"], recent := [], recent_capacity := 1 }

/-! ## Theorems -/

/-! ### Durable store: upsert (C1) -/

theorem lookup_execute_upsert (db : DB) (key : String) (e : Entry) :
    lookupDB (execute_upsert db key e) key =
      some (match lookupDB db key with
            | some old => updateRow old e
            | none => e) := by
  by_cases hany : db.any (fun kv => kv.1 == key) = true
  · obtain ⟨kv0, hmem, hkey⟩ := List.any_eq_true.mp hany
    unfold execute_upsert
    rw [if_pos hany]
    unfold lookupDB
    rw [List.find?_map]
    have hfun :
        ((fun kv : String × Entry => kv.1 == key) ∘
          (fun kv : String × Entry =>
            if kv.1 == key then (kv.1, updateRow kv.2 e) else kv)) =
        (fun kv : String × Entry => kv.1 == key) := by
      funext kv
      by_cases h : kv.1 = key <;> simp [h]
    rw [hfun]
    cases hfind : db.find? (fun kv => kv.1 == key) with
    | none =>
      rw [List.find?_eq_none] at hfind
      exact absurd hkey (hfind kv0 hmem)
    | some kv1 =>
      have hk1 : kv1.1 = key := by
        simpa using List.find?_some hfind
      simp [hk1]
  · have hnone : db.find? (fun kv => kv.1 == key) = none := by
      rw [List.find?_eq_none]
      intro x hx hpx
      exact hany (List.any_eq_true.mpr ⟨x, hx, hpx⟩)
    unfold execute_upsert
    rw [if_neg hany]
    unfold lookupDB
    rw [List.find?_append, hnone]
    simp

/-- **C1.** Repeated upserts of a key never change the stored
`created_at`, always set `updated_at` to the time of the write, and the
`ON CONFLICT` clause replaces `value`/`tags`/`updated_at`/`expires_at`
only; an update entry built by `Entry::for_update` with no TTL change
carries over the existing entry's `created_at` and `expires_at`
unchanged, so the stored row after the upsert differs from the old row
exactly in `value`, `tags` and `updated_at`. -/
theorem upsert_created_at_stable (db : DB) (key : String) (eold : Entry)
    (hlook : lookupDB db key = some eold) :
    (∀ e : Entry,
       lookupDB (execute_upsert db key e) key = some (updateRow eold e) ∧
       (updateRow eold e).created_at = eold.created_at ∧
       (updateRow eold e).updated_at = e.updated_at ∧
       (updateRow eold e).expires_at = e.expires_at) ∧
    (∀ (now : Timestamp) (v : String) (tg : List String),
       lookupDB
           (execute_upsert db key (Entry.for_update now (some eold) v tg))
           key =
         some { eold with value := v, tags := tg, updated_at := now }) := by
  constructor
  · intro e
    refine ⟨?_, rfl, rfl, rfl⟩
    rw [lookup_execute_upsert, hlook]
  · intro now v tg
    rw [lookup_execute_upsert, hlook]
    rfl

theorem upsert_created_at_stable_witness :
    lookupDB [("k", Entry.new 5 "v0" [])] "k" = some (Entry.new 5 "v0" []) ∧
    lookupDB
        (execute_upsert [("k", Entry.new 5 "v0" [])] "k"
          (Entry.for_update 9 (some (Entry.new 5 "v0" [])) "v1" ["t"]))
        "k" =
      some { Entry.new 5 "v0" [] with
              value := "v1", tags := ["t"], updated_at := 9 } :=
  ⟨by decide,
   (upsert_created_at_stable [("k", Entry.new 5 "v0" [])] "k"
       (Entry.new 5 "v0" []) (by decide)).2 9 "v1" ["t"]⟩

/-! ### Durable store: TTL sweep (C2) -/

theorem filter_not_length_add_countP (p : (String × Entry) → Bool) (l : DB) :
    (l.filter (fun kv => !(p kv))).length + l.countP p = l.length := by
  induction l with
  | nil => simp
  | cons kv rest ih =>
    cases h : p kv <;> simp [List.filter_cons, List.countP_cons, h] <;> omega

theorem expiredRow_iff (now : Timestamp) (kv : String × Entry) :
    expiredRow now kv = true ↔
      ∃ t, kv.2.expires_at = some t ∧ t ≤ now - oneHour := by
  unfold expiredRow
  cases h : kv.2.expires_at with
  | none => simp
  | some t => simp

/-- **C2.** The TTL sweep deletes exactly the rows whose expiry is at or
before `now` minus the one-hour grace window, returns the number of rows
it deleted, never deletes a row with no expiry, leaves every surviving
row verbatim, and never deletes a row whose expiry lies in the future
(such as one whose TTL was just extended). -/
theorem cleanup_expired_entries_spec (db : DB) (now : Timestamp) :
    ((cleanup_expired_entries db now).1.length +
        (cleanup_expired_entries db now).2 = db.length) ∧
    (∀ kv : String × Entry,
       kv ∈ (cleanup_expired_entries db now).1 ↔
         kv ∈ db ∧ ¬ ∃ t, kv.2.expires_at = some t ∧ t ≤ now - oneHour) ∧
    (∀ kv : String × Entry, kv ∈ db → kv.2.expires_at = none →
       kv ∈ (cleanup_expired_entries db now).1) ∧
    (∀ (kv : String × Entry) (t : Timestamp), kv ∈ db →
       kv.2.expires_at = some t → now < t →
       kv ∈ (cleanup_expired_entries db now).1) := by
  have hmem : ∀ kv : String × Entry,
      kv ∈ (cleanup_expired_entries db now).1 ↔
        kv ∈ db ∧ ¬ ∃ t, kv.2.expires_at = some t ∧ t ≤ now - oneHour := by
    intro kv
    unfold cleanup_expired_entries
    rw [List.mem_filter]
    constructor
    · rintro ⟨hkv, hb⟩
      refine ⟨hkv, fun hex => ?_⟩
      rw [(expiredRow_iff now kv).mpr hex] at hb
      simp at hb
    · rintro ⟨hkv, hnex⟩
      refine ⟨hkv, ?_⟩
      cases hx : expiredRow now kv
      · rfl
      · exact absurd ((expiredRow_iff now kv).mp hx) hnex
  refine ⟨filter_not_length_add_countP (expiredRow now) db, hmem, ?_, ?_⟩
  · intro kv hkv hnoexp
    refine (hmem kv).mpr ⟨hkv, ?_⟩
    rintro ⟨t, ht, _⟩
    rw [hnoexp] at ht
    cases ht
  · intro kv t hkv hexp hfut
    refine (hmem kv).mpr ⟨hkv, ?_⟩
    rintro ⟨u, hu, hle⟩
    rw [hexp, Option.some_inj] at hu
    subst hu
    have h1 : oneHour = 3600 := rfl
    rw [h1] at hle
    linarith

theorem cleanup_expired_entries_spec_witness :
    (("b", Entry.new 0 "B" []) ∈
        ([("a", { Entry.new 0 "A" [] with expires_at := some 100 }),
          ("b", Entry.new 0 "B" [])] : DB)) ∧
    ("b", Entry.new 0 "B" []) ∈
      (cleanup_expired_entries
        [("a", { Entry.new 0 "A" [] with expires_at := some 100 }),
         ("b", Entry.new 0 "B" [])] 5000).1 :=
  ⟨by decide,
   (cleanup_expired_entries_spec
       [("a", { Entry.new 0 "A" [] with expires_at := some 100 }),
        ("b", Entry.new 0 "B" [])] 5000).2.2.1
     ("b", Entry.new 0 "B" []) (by decide) rfl⟩

/-! ### Durable store: schema guard (C3) -/

/-- **C3 counterexample.** A stored schema version of 99 with no prior
`kv` table does not trigger fresh-schema creation, contrary to the claim:
`initialize_schema` fails with the schema-mismatch error. -/
theorem schema_v99_no_table_errors :
    init_schema { user_version := 99, kv_table_exists := false } =
      Except.error (mismatchErr 99) ∧
    exceptOk
        (init_schema { user_version := 99, kv_table_exists := false }) =
      false := by
  constructor <;> rfl

/-- **C3 (amended).** The schema version is checked exactly: version 0
with no prior table triggers fresh-schema creation (stamping version 2);
version 0 with a prior table is the fatal legacy error; version 2 opens
the store unchanged; any other version — 99 included, whether or not a
table exists — fails with the schema-mismatch error, the error being
returned before any write to the table. -/
theorem init_schema_spec (s : SchemaState) :
    (s.user_version = 0 → s.kv_table_exists = false →
       init_schema s = .ok { user_version := 2, kv_table_exists := true }) ∧
    (s.user_version = 0 → s.kv_table_exists = true →
       init_schema s = .error legacyErr) ∧
    (s.user_version = 2 → init_schema s = .ok s) ∧
    (s.user_version ≠ 0 → s.user_version ≠ 2 →
       init_schema s = .error (mismatchErr s.user_version)) := by
  refine ⟨?_, ?_, ?_, ?_⟩
  · intro h0 hnot
    simp [init_schema, h0, hnot]
  · intro h0 htab
    simp [init_schema, h0, htab]
  · intro h2
    have h0 : s.user_version ≠ 0 := by rw [h2]; decide
    simp [init_schema, h0, h2]
  · intro h0 h2
    simp [init_schema, h0, h2]

theorem init_schema_spec_witness :
    ((99 : Int) ≠ 0) ∧ ((99 : Int) ≠ 2) ∧
    init_schema { user_version := 99, kv_table_exists := true } =
      .error (mismatchErr 99) :=
  ⟨by decide, by decide,
   (init_schema_spec { user_version := 99, kv_table_exists := true }).2.2.2
     (by decide) (by decide)⟩

/-! ### Durable store: delete (C7) -/

theorem countP_key_eq_one (db : DB) (key : String) (e : Entry)
    (hwf : DBWF db) (hmem : (key, e) ∈ db) :
    db.countP (fun kv => kv.1 == key) = 1 := by
  induction db with
  | nil => cases hmem
  | cons kv rest ih =>
    have hwf' : (kv.1 ∉ rest.map Prod.fst) ∧ DBWF rest := by
      have := hwf
      unfold DBWF at this
      rw [List.map_cons, List.nodup_cons] at this
      exact this
    rw [List.countP_cons]
    rcases List.mem_cons.mp hmem with heq | hmem'
    · have hkey : kv.1 = key := by rw [← heq]
      have hrest : rest.countP (fun kv => kv.1 == key) = 0 := by
        rw [List.countP_eq_zero]
        intro x hx
        have hxk : x.1 ≠ key := by
          intro hcontra
          exact hwf'.1 (hkey ▸ hcontra ▸ List.mem_map_of_mem Prod.fst hx)
        simp [hxk]
      simp [hrest, hkey]
    · have hkey : kv.1 ≠ key := by
        intro hcontra
        exact hwf'.1
          (hcontra ▸ List.mem_map_of_mem Prod.fst hmem' :
            kv.1 ∈ rest.map Prod.fst)
      simp [hkey, ih hwf'.2 hmem']

/-- **C7.** `delete_entry` fails with `NotFound` when no row matches the
key — the transaction is dropped without commit, so the table is
unchanged — and when a row matches, exactly that one row is removed. -/
theorem delete_entry_spec (db : DB) (key : String) :
    ((∀ kv ∈ db, kv.1 ≠ key) →
       delete_entry db key = (db, Except.error (KvError.NotFound key))) ∧
    (∀ e : Entry, DBWF db → (key, e) ∈ db →
       (delete_entry db key).2 = Except.ok () ∧
       (delete_entry db key).1.length + 1 = db.length ∧
       ∀ kv : String × Entry,
         kv ∈ (delete_entry db key).1 ↔ kv ∈ db ∧ kv.1 ≠ key) := by
  constructor
  · intro hno
    have hcount : db.countP (fun kv => kv.1 == key) = 0 := by
      rw [List.countP_eq_zero]
      intro kv hkv
      simp [hno kv hkv]
    unfold delete_entry
    simp [hcount]
  · intro e hwf hmem
    have hcount : db.countP (fun kv => kv.1 == key) = 1 :=
      countP_key_eq_one db key e hwf hmem
    have hne : ¬ db.countP (fun kv => kv.1 == key) = 0 := by
      rw [hcount]; decide
    have hres : delete_entry db key =
        (db.filter (fun kv => !(kv.1 == key)), Except.ok ()) := by
      unfold delete_entry
      simp [hne]
    refine ⟨by rw [hres], ?_, ?_⟩
    · rw [hres]
      have := filter_not_length_add_countP (fun kv => kv.1 == key) db
      rw [hcount] at this
      exact this
    · intro kv
      rw [hres]
      simp only [List.mem_filter, Bool.not_eq_eq_eq_not, Bool.not_true,
        beq_eq_false_iff_ne, ne_eq]

theorem delete_entry_spec_witness :
    DBWF [("a", Entry.new 0 "A" []), ("b", Entry.new 0 "B" [])] ∧
    (("a", Entry.new 0 "A" []) ∈
      ([("a", Entry.new 0 "A" []), ("b", Entry.new 0 "B" [])] : DB)) ∧
    (delete_entry [("a", Entry.new 0 "A" []), ("b", Entry.new 0 "B" [])]
        "a").2 = Except.ok () ∧
    (delete_entry [("a", Entry.new 0 "A" []), ("b", Entry.new 0 "B" [])]
        "a").1.length + 1 = 2 :=
  ⟨by unfold DBWF; decide, by decide,
   ((delete_entry_spec [("a", Entry.new 0 "A" []), ("b", Entry.new 0 "B" [])]
        "a").2 (Entry.new 0 "A" []) (by unfold DBWF; decide) (by decide)).1,
   ((delete_entry_spec [("a", Entry.new 0 "A" []), ("b", Entry.new 0 "B" [])]
        "a").2 (Entry.new 0 "A" []) (by unfold DBWF; decide) (by decide)).2.1⟩

/-! ### TTL extension (C10) -/

/-- **C10.** `extend_ttl_minutes m` sets the expiry to
`max(current expiry, now) + m` minutes, falling back to `now` when there
is no expiry, so for positive `m` (the only values the HTTP handler
admits) the resulting expiry is at least `now + m` minutes and strictly in
the future — the entry is not logically dead. -/
theorem extend_ttl_minutes_spec (now : Timestamp) (e : Entry) (m : Nat)
    (hm : 1 ≤ m) :
    (Entry.extend_ttl_minutes now e m).expires_at =
      some ((match e.expires_at with
             | some t => max t now
             | none => now) + minutesDur m) ∧
    ∀ t, (Entry.extend_ttl_minutes now e m).expires_at = some t →
      now + minutesDur m ≤ t ∧ now < t := by
  refine ⟨rfl, ?_⟩
  intro t ht
  have hbase : ∃ base : Timestamp,
      t = base + minutesDur m ∧ now ≤ base := by
    cases hexp : e.expires_at with
    | none =>
      refine ⟨now, ?_, le_refl now⟩
      unfold Entry.extend_ttl_minutes at ht
      rw [hexp] at ht
      simpa using ht.symm
    | some u =>
      refine ⟨max u now, ?_, le_max_right u now⟩
      unfold Entry.extend_ttl_minutes at ht
      rw [hexp] at ht
      simpa using ht.symm
  obtain ⟨base, hteq, hble⟩ := hbase
  have hdur : (60 : Int) ≤ minutesDur m := by
    unfold minutesDur
    have : (1 : Int) ≤ (m : Int) := by exact_mod_cast hm
    linarith
  constructor
  · rw [hteq]; linarith
  · rw [hteq]; linarith

theorem extend_ttl_minutes_spec_witness :
    (1 ≤ 5) ∧
    ((100 : Timestamp) + minutesDur 5 ≤ 100 + 300 ∧ (100 : Timestamp) < 100 + 300) :=
  ⟨by decide,
   (extend_ttl_minutes_spec 100 { Entry.new 0 "v" [] with expires_at := some 40 }
       5 (by decide)).2 (100 + 300) (by decide)⟩

/-! ### Tag normalization (C9) -/

theorem dropWhile_eq_cons_not (p : Char → Bool) (l res : List Char) (c : Char)
    (h : List.dropWhile p l = c :: res) : p c = false := by
  induction l with
  | nil => cases h
  | cons a as ih =>
    rw [List.dropWhile_cons] at h
    by_cases ha : p a = true
    · rw [if_pos ha] at h
      exact ih h
    · rw [if_neg ha] at h
      cases h
      exact Bool.eq_false_iff.mpr ha

theorem trimChars_idem (l : List Char) :
    trimChars (trimChars l) = trimChars l := by
  unfold trimChars
  have hfront :
      List.dropWhile Char.isWhitespace
        (List.rdropWhile Char.isWhitespace
          (List.dropWhile Char.isWhitespace l)) =
      List.rdropWhile Char.isWhitespace
        (List.dropWhile Char.isWhitespace l) := by
    cases hr : List.rdropWhile Char.isWhitespace
        (List.dropWhile Char.isWhitespace l) with
    | nil => rfl
    | cons c cs =>
      have hpre :=
        List.rdropWhile_prefix Char.isWhitespace
          (List.dropWhile Char.isWhitespace l)
      rw [hr] at hpre
      obtain ⟨t, ht⟩ := hpre
      have hdw : List.dropWhile Char.isWhitespace l = c :: (cs ++ t) := by
        rw [← ht]
        rfl
      have hc : Char.isWhitespace c = false :=
        dropWhile_eq_cons_not Char.isWhitespace l (cs ++ t) c hdw
      rw [List.dropWhile_cons, hc]
      simp
  rw [hfront, List.rdropWhile_idempotent]

theorem rustTrim_idem (s : String) : rustTrim (rustTrim s) = rustTrim s :=
  congrArg String.mk (trimChars_idem s.data)

theorem mem_insertSorted (x y : String) (l : List String) :
    y ∈ insertSorted x l ↔ y = x ∨ y ∈ l := by
  induction l with
  | nil => simp [insertSorted]
  | cons z zs ih =>
    unfold insertSorted
    by_cases h1 : x < z
    · rw [if_pos h1]
      simp
    · rw [if_neg h1]
      by_cases h2 : x = z
      · rw [if_pos h2]
        subst h2
        simp only [List.mem_cons]
        constructor
        · exact Or.inr
        · rintro (rfl | h)
          · exact Or.inl rfl
          · exact h
      · rw [if_neg h2]
        simp only [List.mem_cons, ih]
        constructor
        · rintro (rfl | h | h)
          · exact Or.inr (Or.inl rfl)
          · exact Or.inl h
          · exact Or.inr (Or.inr h)
        · rintro (h | rfl | h)
          · exact Or.inr (Or.inl h)
          · exact Or.inl rfl
          · exact Or.inr (Or.inr h)

theorem pairwise_insertSorted (x : String) (l : List String)
    (hs : l.Pairwise (· < ·)) :
    (insertSorted x l).Pairwise (· < ·) := by
  induction l with
  | nil => simp [insertSorted]
  | cons z zs ih =>
    rw [List.pairwise_cons] at hs
    unfold insertSorted
    by_cases h1 : x < z
    · rw [if_pos h1]
      refine List.pairwise_cons.mpr ⟨?_, List.pairwise_cons.mpr hs⟩
      intro y hy
      rcases List.mem_cons.mp hy with rfl | hmem
      · exact h1
      · exact lt_trans h1 (hs.1 y hmem)
    · rw [if_neg h1]
      by_cases h2 : x = z
      · rw [if_pos h2]
        exact List.pairwise_cons.mpr hs
      · rw [if_neg h2]
        refine List.pairwise_cons.mpr ⟨?_, ih hs.2⟩
        intro y hy
        rcases (mem_insertSorted x y zs).mp hy with rfl | hmem
        · rcases lt_trichotomy y z with h | h | h
          · exact absurd h h1
          · exact absurd h h2
          · exact h
        · exact hs.1 y hmem

theorem normStep_eq (set : List String) (tag : String) :
    normStep set tag =
      if rustTrim tag = "" then set else insertSorted (rustTrim tag) set :=
  rfl

theorem foldl_normStep_pairwise (raw : List String) (acc : List String)
    (hacc : acc.Pairwise (· < ·)) :
    (raw.foldl normStep acc).Pairwise (· < ·) := by
  induction raw generalizing acc with
  | nil => simpa using hacc
  | cons t ts ih =>
    rw [List.foldl_cons]
    apply ih
    rw [normStep_eq]
    by_cases h : rustTrim t = ""
    · rw [if_pos h]
      exact hacc
    · rw [if_neg h]
      exact pairwise_insertSorted (rustTrim t) acc hacc

theorem mem_foldl_normStep (raw : List String) (acc : List String)
    (y : String) :
    y ∈ raw.foldl normStep acc ↔
      y ∈ acc ∨ ∃ t ∈ raw, rustTrim t = y ∧ y ≠ "" := by
  induction raw generalizing acc with
  | nil => simp
  | cons t ts ih =>
    rw [List.foldl_cons, ih, normStep_eq]
    by_cases h : rustTrim t = ""
    · rw [if_pos h]
      simp only [List.mem_cons]
      constructor
      · rintro (hy | ⟨r, hr, hry⟩)
        · exact Or.inl hy
        · exact Or.inr ⟨r, Or.inr hr, hry⟩
      · rintro (hy | ⟨r, (rfl | hr), hry⟩)
        · exact Or.inl hy
        · exact absurd (hry.1.symm.trans h) hry.2
        · exact Or.inr ⟨r, hr, hry⟩
    · rw [if_neg h]
      simp only [mem_insertSorted, List.mem_cons]
      constructor
      · rintro ((rfl | hy) | ⟨r, hr, hry⟩)
        · exact Or.inr ⟨t, Or.inl rfl, rfl, h⟩
        · exact Or.inl hy
        · exact Or.inr ⟨r, Or.inr hr, hry⟩
      · rintro (hy | ⟨r, (rfl | hr), hry⟩)
        · exact Or.inl (Or.inr hy)
        · exact Or.inl (Or.inl hry.1.symm)
        · exact Or.inr ⟨r, hr, hry⟩

theorem insertSorted_append (x : String) (l : List String)
    (hall : ∀ y ∈ l, y < x) : insertSorted x l = l ++ [x] := by
  induction l with
  | nil => rfl
  | cons z zs ih =>
    have hz : z < x := hall z (List.mem_cons_self z zs)
    unfold insertSorted
    rw [if_neg (asymm hz), if_neg hz.ne']
    rw [ih (fun y hy => hall y (List.mem_cons_of_mem z hy))]
    rfl

theorem foldl_normStep_of_sorted (l : List String) (acc : List String)
    (h : (acc ++ l).Pairwise (· < ·))
    (hfix : ∀ y ∈ l, rustTrim y = y ∧ y ≠ "") :
    l.foldl normStep acc = acc ++ l := by
  induction l generalizing acc with
  | nil => simp
  | cons z zs ih =>
    rw [List.foldl_cons]
    have hz := hfix z (List.mem_cons_self z zs)
    have hlt : ∀ y ∈ acc, y < z := by
      intro y hy
      exact (List.pairwise_append.mp h).2.2 y hy z (List.mem_cons_self z zs)
    have hstep : normStep acc z = acc ++ [z] := by
      rw [normStep_eq, hz.1, if_neg hz.2]
      exact insertSorted_append z acc hlt
    rw [hstep]
    have hsorted' : ((acc ++ [z]) ++ zs).Pairwise (· < ·) := by
      rw [List.append_assoc]
      simpa using h
    rw [ih (acc ++ [z]) hsorted'
      (fun y hy => hfix y (List.mem_cons_of_mem z hy))]
    simp

/-- **C9.** `normalize_tags` is idempotent, and its output is always
sorted (strictly ascending), duplicate-free, and contains no empty or
whitespace-only tag: every output tag is trimmed and non-empty. -/
theorem normalize_tags_spec (raw : List String) :
    normalize_tags (normalize_tags raw) = normalize_tags raw ∧
    (normalize_tags raw).Pairwise (· < ·) ∧
    (normalize_tags raw).Nodup ∧
    ∀ t ∈ normalize_tags raw, rustTrim t = t ∧ t ≠ "" := by
  have hsorted : (normalize_tags raw).Pairwise (· < ·) :=
    foldl_normStep_pairwise raw [] (by simp)
  have hfix : ∀ t ∈ normalize_tags raw, rustTrim t = t ∧ t ≠ "" := by
    intro t ht
    rcases (mem_foldl_normStep raw [] t).mp ht with h | ⟨r, _, hrt, hne⟩
    · cases h
    · exact ⟨by rw [← hrt, rustTrim_idem], hne⟩
  have hnodup : (normalize_tags raw).Nodup :=
    hsorted.imp (fun h => ne_of_lt h)
  refine ⟨?_, hsorted, hnodup, hfix⟩
  show (normalize_tags raw).foldl normStep [] = normalize_tags raw
  rw [foldl_normStep_of_sorted (normalize_tags raw) [] (by simpa using hsorted)
    hfix]
  simp

theorem normalize_tags_spec_witness :
    ("a" ∈ normalize_tags [" a "]) ∧ rustTrim "a" = "a" ∧ "a" ≠ "" :=
  ⟨by decide,
   (normalize_tags_spec [" a "]).2.2.2 "a" (by decide)⟩

/-! ### Recent-history invariant (C5) -/

theorem dedupFirstAux_subset (l : List String) (seen : List String)
    (y : String) (hy : y ∈ dedupFirstAux seen l) : y ∈ l := by
  induction l generalizing seen with
  | nil => rw [dedupFirstAux] at hy; cases hy
  | cons x xs ih =>
    rw [dedupFirstAux] at hy
    by_cases h : x ∈ seen
    · rw [if_pos h] at hy
      exact List.mem_cons_of_mem x (ih seen hy)
    · rw [if_neg h] at hy
      rcases List.mem_cons.mp hy with rfl | h'
      · exact List.mem_cons_self _ _
      · exact List.mem_cons_of_mem x (ih (x :: seen) h')

theorem dedupFirst_subset (l : List String) (y : String)
    (hy : y ∈ dedupFirst l) : y ∈ l :=
  dedupFirstAux_subset l [] y hy

theorem dedupFirstAux_not_mem_seen (l : List String) (seen : List String)
    (y : String) (hy : y ∈ dedupFirstAux seen l) : y ∉ seen := by
  induction l generalizing seen with
  | nil => rw [dedupFirstAux] at hy; cases hy
  | cons x xs ih =>
    rw [dedupFirstAux] at hy
    by_cases h : x ∈ seen
    · rw [if_pos h] at hy
      exact ih seen hy
    · rw [if_neg h] at hy
      rcases List.mem_cons.mp hy with rfl | h'
      · exact h
      · intro hseen
        exact ih (x :: seen) h' (List.mem_cons_of_mem x hseen)

theorem dedupFirstAux_nodup (l : List String) (seen : List String) :
    (dedupFirstAux seen l).Nodup := by
  induction l generalizing seen with
  | nil => rw [dedupFirstAux]; exact List.nodup_nil
  | cons x xs ih =>
    rw [dedupFirstAux]
    by_cases h : x ∈ seen
    · rw [if_pos h]
      exact ih seen
    · rw [if_neg h]
      refine List.nodup_cons.mpr ⟨?_, ih (x :: seen)⟩
      intro hx
      exact dedupFirstAux_not_mem_seen xs (x :: seen) x hx
        (List.mem_cons_self x seen)

theorem dedupFirst_nodup (l : List String) : (dedupFirst l).Nodup :=
  dedupFirstAux_nodup l []

theorem dedupFirstAux_eq_self (l : List String) (seen : List String)
    (h : l.Nodup) (hdisj : ∀ y ∈ l, y ∉ seen) :
    dedupFirstAux seen l = l := by
  induction l generalizing seen with
  | nil => rw [dedupFirstAux]
  | cons x xs ih =>
    rw [dedupFirstAux]
    rw [List.nodup_cons] at h
    rw [if_neg (hdisj x (List.mem_cons_self x xs))]
    have hrest : dedupFirstAux (x :: seen) xs = xs := by
      apply ih (x :: seen) h.2
      intro y hy hmem
      rcases List.mem_cons.mp hmem with rfl | hseen
      · exact h.1 hy
      · exact hdisj y (List.mem_cons_of_mem x hy) hseen
    rw [hrest]

theorem dedupFirst_eq_self (l : List String) (h : l.Nodup) :
    dedupFirst l = l :=
  dedupFirstAux_eq_self l [] h (fun y _ => List.not_mem_nil y)

theorem prune_recent_eq (s : Store) (h : ¬ s.recent = []) :
    s.prune_recent = { s with recent :=
      (if s.recent_capacity <
          (dedupFirst (s.recent.filter (fun k => s.containsKey k))).length
        then
          (dedupFirst (s.recent.filter (fun k => s.containsKey k))).take
            s.recent_capacity
        else dedupFirst (s.recent.filter (fun k => s.containsKey k))) } := by
  unfold Store.prune_recent
  rw [if_neg h]

theorem prune_recent_inv (s : Store) : RecentInv s.prune_recent := by
  by_cases h : s.recent = []
  · have hid : s.prune_recent = s := by
      unfold Store.prune_recent
      rw [if_pos h]
    rw [hid]
    constructor
    · rw [h]; exact List.nodup_nil
    · intro k hk
      rw [h] at hk
      cases hk
  · rw [prune_recent_eq s h]
    have hnodup : (dedupFirst
        (s.recent.filter (fun k => s.containsKey k))).Nodup :=
      dedupFirst_nodup _
    have hmemp : ∀ k ∈ dedupFirst (s.recent.filter (fun k => s.containsKey k)),
        s.containsKey k = true := by
      intro k hk
      exact (List.mem_filter.mp (dedupFirst_subset _ k hk)).2
    by_cases hlen : s.recent_capacity <
        (dedupFirst (s.recent.filter (fun k => s.containsKey k))).length
    · rw [if_pos hlen]
      constructor
      · exact hnodup.sublist (List.take_sublist _ _)
      · intro k hk
        exact hmemp k ((List.take_sublist _ _).subset hk)
    · rw [if_neg hlen]
      exact ⟨hnodup, hmemp⟩

theorem any_insertMap (m : List (String × Entry)) (key k : String) (e : Entry)
    (h : (m.any (fun kv => kv.1 == k)) = true) :
    ((Store.insertMap m key e).any (fun kv => kv.1 == k)) = true := by
  unfold Store.insertMap
  by_cases hc : m.any (fun kv => kv.1 == key) = true
  · rw [if_pos hc]
    obtain ⟨kv, hkv, hk⟩ := List.any_eq_true.mp h
    apply List.any_eq_true.mpr
    refine ⟨if kv.1 == key then (kv.1, e) else kv,
      List.mem_map_of_mem _ hkv, ?_⟩
    cases hkk : (kv.1 == key) with
    | false => simpa [hkk] using hk
    | true => simpa [hkk] using hk
  · rw [if_neg hc]
    rw [List.any_append, h]
    rfl

/-- **C5.** The recent-history invariant — no duplicate keys and every
recorded key present in the entry map — is preserved by every `Store`
operation: `insert`, `remove`, `reset`, `record_access` and
`enable_recent_history`. -/
theorem recent_history_invariant (s : Store) (hs : RecentInv s) :
    (∀ (key : String) (e : Entry), RecentInv (s.insert key e)) ∧
    (∀ key : String, RecentInv (s.remove key)) ∧
    (∀ entries : List (String × Entry), RecentInv (s.reset entries)) ∧
    (∀ key : String, RecentInv (s.record_access key)) ∧
    (∀ (file : Option (List String)) (config : RecentConfig),
       RecentInv (s.enable_recent_history file config)) := by
  refine ⟨?_, ?_, ?_, ?_, ?_⟩
  · intro key e
    refine ⟨hs.1, ?_⟩
    intro k hk
    exact any_insertMap s.entries key k e (hs.2 k hk)
  · intro key
    unfold Store.remove
    by_cases hc : s.containsKey key = true
    · rw [if_pos hc]
      exact prune_recent_inv _
    · rw [if_neg hc]
      exact hs
  · intro entries
    exact prune_recent_inv _
  · intro key
    unfold Store.record_access
    by_cases hc : (!(s.containsKey key)) = true
    · rw [if_pos hc]
      exact hs
    · rw [if_neg hc]
      have hck : s.containsKey key = true := by
        cases h : s.containsKey key
        · rw [h] at hc; simp at hc
        · rfl
      constructor
      · apply List.Nodup.sublist (List.take_sublist _ _)
        refine List.nodup_cons.mpr ⟨?_, hs.1.filter _⟩
        intro hmem
        rw [List.mem_filter] at hmem
        simp at hmem
      · intro k hk
        have hk' := (List.take_sublist _ _).subset hk
        rcases List.mem_cons.mp hk' with rfl | hmem
        · exact hck
        · exact hs.2 k (List.mem_of_mem_filter hmem)
  · intro file config
    exact prune_recent_inv _

theorem recent_history_invariant_witness :
    RecentInv { entries := [("a", Entry.new 0 "A" [])], search_keys := ["a"],
                recent := ["a"], recent_capacity := 3 } ∧
    RecentInv (Store.record_access
      { entries := [("a", Entry.new 0 "A" [])], search_keys := ["a"],
        recent := ["a"], recent_capacity := 3 } "a") :=
  ⟨⟨by decide, by decide⟩,
   (recent_history_invariant
       { entries := [("a", Entry.new 0 "A" [])], search_keys := ["a"],
         recent := ["a"], recent_capacity := 3 }
       ⟨by decide, by decide⟩).2.2.2.1 "a"⟩

/-! ### Recent-history bound and persistence roundtrip (C6) -/

theorem record_access_frame (s : Store) (key : String) :
    (s.record_access key).entries = s.entries ∧
    (s.record_access key).recent_capacity = s.recent_capacity := by
  unfold Store.record_access
  by_cases hc : (!(s.containsKey key)) = true
  · rw [if_pos hc]; exact ⟨rfl, rfl⟩
  · rw [if_neg hc]; exact ⟨rfl, rfl⟩

theorem record_access_recent (s : Store) (key : String)
    (hck : s.containsKey key = true) :
    (s.record_access key).recent =
      ((key :: s.recent.filter (fun k => !(k == key))).take
        s.recent_capacity) := by
  unfold Store.record_access
  rw [if_neg (by rw [hck]; simp)]

theorem filter_ne_of_not_mem (l : List String) (key : String)
    (h : key ∉ l) : l.filter (fun k => !(k == key)) = l := by
  apply List.filter_eq_self.mpr
  intro y hy
  have hne : y ≠ key := fun hc => h (hc ▸ hy)
  simp [hne]

theorem map_rustTrim_fix (l : List String)
    (h : ∀ x ∈ l, rustTrim x = x) : l.map rustTrim = l := by
  induction l with
  | nil => rfl
  | cons x xs ih =>
    rw [List.map_cons, h x (List.mem_cons_self x xs),
      ih (fun y hy => h y (List.mem_cons_of_mem x hy))]

theorem foldl_record_access_recent (ks : List String) (s : Store)
    (hpres : ∀ k ∈ ks, s.containsKey k = true)
    (hnodup : ks.Nodup)
    (hdisj : ∀ k ∈ ks, k ∉ s.recent)
    (hlen : s.recent.length + ks.length ≤ s.recent_capacity) :
    (ks.foldl Store.record_access s).recent = ks.reverse ++ s.recent ∧
    (ks.foldl Store.record_access s).entries = s.entries ∧
    (ks.foldl Store.record_access s).recent_capacity =
      s.recent_capacity := by
  induction ks generalizing s with
  | nil => exact ⟨by simp, rfl, rfl⟩
  | cons k ks ih =>
    rw [List.foldl_cons]
    have hck : s.containsKey k = true := hpres k (List.mem_cons_self k ks)
    rw [List.nodup_cons] at hnodup
    have hrec : (s.record_access k).recent = k :: s.recent := by
      rw [record_access_recent s k hck,
        filter_ne_of_not_mem s.recent k (hdisj k (List.mem_cons_self k ks))]
      apply List.take_of_length_le
      rw [List.length_cons]
      have := hlen
      rw [List.length_cons] at this
      omega
    have hent : (s.record_access k).entries = s.entries :=
      (record_access_frame s k).1
    have hcap : (s.record_access k).recent_capacity = s.recent_capacity :=
      (record_access_frame s k).2
    have hcontains : ∀ x : String,
        (s.record_access k).containsKey x = s.containsKey x := by
      intro x
      unfold Store.containsKey
      rw [hent]
    obtain ⟨h1, h2, h3⟩ := ih (s.record_access k)
      (fun x hx => by rw [hcontains x]; exact hpres x (List.mem_cons_of_mem k hx))
      hnodup.2
      (fun x hx => by
        rw [hrec]
        intro hmem
        rcases List.mem_cons.mp hmem with rfl | hmem'
        · exact hnodup.1 hx
        · exact hdisj x (List.mem_cons_of_mem k hx) hmem')
      (by
        rw [hrec, hcap, List.length_cons]
        rw [List.length_cons] at hlen
        omega)
    refine ⟨?_, h2.trans hent, h3.trans hcap⟩
    rw [h1, hrec]
    simp

/-- **C6 (amended).** With capacity `c ≥ 1`, after `c` `record_access`
calls on `c` distinct present keys followed by one more on a further
present key, the recent log holds exactly `c` keys, most-recent-first and
duplicate-free (the new key first, then the previous accesses
newest-first with the oldest evicted); and provided every key involved is
trimmed, non-empty and newline-free — keys the one-key-per-line side-file
format can represent; others are altered or dropped by the loader's
trim-and-prune, see the counterexample — reloading the persisted payload
through `enable_recent_history` on a store holding those keys reproduces
exactly the same list. -/
theorem recent_history_bound (c : Nat) (ks : List String) (knew : String)
    (s s2 : Store)
    (hc : 1 ≤ c)
    (hrec0 : s.recent = [])
    (hcap : s.recent_capacity = c)
    (hlen : ks.length = c)
    (hnodup : ks.Nodup)
    (hnew : knew ∉ ks)
    (hpres : ∀ k ∈ knew :: ks, s.containsKey k = true)
    (hpres2 : ∀ k ∈ knew :: ks, s2.containsKey k = true) :
    ((ks.foldl Store.record_access s).record_access knew).recent =
        knew :: (ks.reverse.take (c - 1)) ∧
    ((ks.foldl Store.record_access s).record_access knew).recent.length
        = c ∧
    ((ks.foldl Store.record_access s).record_access knew).recent.Nodup ∧
    ((∀ k ∈ knew :: ks, rustTrim k = k ∧ k ≠ "" ∧ ('\n' ∈ k.data → False)) →
      (s2.enable_recent_history
          (some (Store.persistPayload
            ((ks.foldl Store.record_access s).record_access knew)))
          (RecentConfig.new c)).recent =
        ((ks.foldl Store.record_access s).record_access knew).recent) := by
  obtain ⟨hfold, hent, hcapf⟩ := foldl_record_access_recent ks s
    (fun k hk => hpres k (List.mem_cons_of_mem knew hk)) hnodup
    (fun k _ => by rw [hrec0]; exact List.not_mem_nil k)
    (by rw [hrec0, hcap, hlen]; simp)
  rw [hrec0, List.append_nil] at hfold
  have hcontains : ∀ x : String,
      (ks.foldl Store.record_access s).containsKey x = s.containsKey x := by
    intro x
    unfold Store.containsKey
    rw [hent]
  have hcknew : (ks.foldl Store.record_access s).containsKey knew = true := by
    rw [hcontains knew]
    exact hpres knew (List.mem_cons_self knew ks)
  have hnewrev : knew ∉ ks.reverse := fun h => hnew (List.mem_reverse.mp h)
  obtain ⟨c', rfl⟩ : ∃ c', c = c' + 1 := by
    cases c with
    | zero => exact absurd hc (by decide)
    | succ n => exact ⟨n, rfl⟩
  have hrecacc :
      ((ks.foldl Store.record_access s).record_access knew).recent =
        knew :: (ks.reverse.take c') := by
    rw [record_access_recent _ knew hcknew, hfold,
      filter_ne_of_not_mem ks.reverse knew hnewrev, hcapf, hcap,
      List.take_succ_cons]
  have hlenrev : ks.reverse.length = c' + 1 := by
    rw [List.length_reverse, hlen]
  have htakelen : (ks.reverse.take c').length = c' := by
    rw [List.length_take, hlenrev]
    omega
  have hsub : ∀ x ∈ knew :: ks.reverse.take c', x ∈ knew :: ks := by
    intro x hx
    rcases List.mem_cons.mp hx with rfl | hx'
    · exact List.mem_cons_self x ks
    · exact List.mem_cons_of_mem knew
        (List.mem_reverse.mp ((List.take_sublist c' ks.reverse).subset hx'))
  have hnodupacc : (knew :: ks.reverse.take c').Nodup := by
    refine List.nodup_cons.mpr ⟨?_, ?_⟩
    · intro hmem
      exact hnewrev ((List.take_sublist c' ks.reverse).subset hmem)
    · exact (List.nodup_reverse.mpr hnodup).sublist
        (List.take_sublist c' ks.reverse)
  refine ⟨hrecacc, ?_, ?_, ?_⟩
  · rw [hrecacc, List.length_cons, htakelen]
  · rw [hrecacc]
    exact hnodupacc
  · -- the persisted payload reloads to the same list
    intro hclean
    have hcapacc :
        ((ks.foldl Store.record_access s).record_access knew).recent_capacity
          = c' + 1 := by
      rw [(record_access_frame _ knew).2, hcapf, hcap]
    have hpayload :
        Store.persistPayload
            ((ks.foldl Store.record_access s).record_access knew) =
          knew :: ks.reverse.take c' := by
      unfold Store.persistPayload
      rw [hrecacc, hcapacc]
      apply List.take_of_length_le
      rw [List.length_cons, htakelen]
    have hcfg : (RecentConfig.new (c' + 1)).capacity = c' + 1 := by
      show max (c' + 1) 1 = c' + 1
      exact Nat.max_eq_left (by omega)
    have hload :
        load_recent_history (some (knew :: ks.reverse.take c')) (c' + 1) =
          knew :: ks.reverse.take c' := by
      unfold load_recent_history
      rw [if_neg (by omega : ¬ c' + 1 = 0)]
      show dedupFirst
          (((knew :: ks.reverse.take c').map rustTrim).filter
            (fun l => !(l == ""))) = knew :: ks.reverse.take c'
      rw [map_rustTrim_fix _ (fun x hx => (hclean x (hsub x hx)).1)]
      rw [List.filter_eq_self.mpr (by
        intro a ha
        have hne : a ≠ "" := (hclean a (hsub a ha)).2.1
        simp [hne])]
      exact dedupFirst_eq_self _ hnodupacc
    unfold Store.enable_recent_history
    rw [hpayload, hcfg, hload, hrecacc]
    -- now prune on a store whose recent is exactly the loaded list
    rw [prune_recent_eq _ (by simp)]
    have hfilter :
        (knew :: ks.reverse.take c').filter
            (fun k => Store.containsKey
              { s2 with recent_capacity := c' + 1,
                        recent := knew :: ks.reverse.take c' } k) =
          knew :: ks.reverse.take c' := by
      apply List.filter_eq_self.mpr
      intro a ha
      exact hpres2 a (hsub a ha)
    rw [hfilter, dedupFirst_eq_self _ hnodupacc]
    rw [if_neg (by
      rw [List.length_cons, htakelen]
      show ¬ c' + 1 < c' + 1
      omega)]

theorem recent_history_bound_witness :
    (1 ≤ 1) ∧
    ((List.foldl Store.record_access wStore ["a"]).record_access "b").recent
        = ["b"] ∧
    (Store.enable_recent_history wStore
        (some (Store.persistPayload
          ((List.foldl Store.record_access wStore ["a"]).record_access "b")))
        (RecentConfig.new 1)).recent =
      ((List.foldl Store.record_access wStore ["a"]).record_access
        "b").recent := by
  have h := recent_history_bound 1 ["a"] "b" wStore wStore (by decide) rfl rfl
    rfl (by decide) (by decide) (by decide) (by decide)
  exact ⟨by decide, h.1, h.2.2.2 (by decide)⟩

/-- **C6 counterexample.** The claim as stated fails for an untrimmed
key: in a store of capacity 1 whose entry map holds the keys `" a"` and
`"b"`, one `record_access` on `"b"` followed by one more on the distinct
present key `" a"` leaves the log `[" a"]` — exactly `c = 1` keys,
most-recent-first — but reloading the persisted file through
`enable_recent_history` yields the empty log rather than the same order:
the loader trims each line, so `" a"` comes back as `"a"`, which matches
no stored key and is pruned. -/
theorem recent_history_reload_counterexample :
    ((List.foldl Store.record_access cStore ["b"]).record_access
        " a").recent = [" a"] ∧
    (Store.enable_recent_history cStore
        (some (Store.persistPayload
          ((List.foldl Store.record_access cStore ["b"]).record_access
            " a")))
        (RecentConfig.new 1)).recent = [] := by
  constructor <;> rfl

/-! ### Reset and the recent-history log (C8) -/

theorem prune_recent_nil (s : Store) (h : s.recent = []) :
    s.prune_recent = s := by
  unfold Store.prune_recent
  rw [if_pos h]

/-- **C8 counterexample.** `reset` does not retain previously recorded
keys that are present in the new entry set: resetting a store whose
recent log is `["a"]` to an entry set that still contains `"a"` leaves an
empty log, even though pruning the prior log against the new key set
would retain `["a"]`. -/
theorem reset_retention_counterexample :
    (Store.reset
        { entries := [("a", Entry.new 0 "A" [])], search_keys := ["a"],
          recent := ["a"], recent_capacity := 5 }
        [("a", Entry.new 0 "A" [])]).recent = [] ∧
    (["a"] : List String).filter
        (fun k =>
          (([("a", Entry.new 0 "A" [])] : List (String × Entry)).any
            (fun kv => kv.1 == k))) = ["a"] := by
  constructor <;> rfl

/-- **C8 (amended).** After a cache reset/import with a new entry set,
the recent-history log is cleared — it retains none of the previously
recorded keys — and the now-empty log is re-persisted to the side file
(the payload written is empty). -/
theorem reset_clears_recent (s : Store) (entries : List (String × Entry)) :
    (s.reset entries).recent = [] ∧
    Store.persistPayload (s.reset entries) = [] := by
  have h : (s.reset entries).recent = [] := by
    show (Store.prune_recent _).recent = []
    rw [prune_recent_nil _ rfl]
  refine ⟨h, ?_⟩
  unfold Store.persistPayload
  rw [h]
  exact List.take_nil

/-! ### Fuzzy search (C4) -/

theorem insertByScore_perm (x : Scored) (l : List Scored) :
    (insertByScore x l).Perm (x :: l) := by
  induction l with
  | nil => exact List.Perm.refl _
  | cons y ys ih =>
    unfold insertByScore
    by_cases h : y.score < x.score
    · rw [if_pos h]
    · rw [if_neg h]
      exact (ih.cons y).trans (List.Perm.swap x y ys)

theorem sortByScoreDesc_perm (l : List Scored) :
    (sortByScoreDesc l).Perm l := by
  induction l with
  | nil => exact List.Perm.refl _
  | cons x xs ih =>
    rw [sortByScoreDesc, List.foldr_cons]
    exact (insertByScore_perm x _).trans (ih.cons x)

theorem pairwise_insertByScore (x : Scored) (l : List Scored)
    (h : l.Pairwise (fun a b => b.score ≤ a.score)) :
    (insertByScore x l).Pairwise (fun a b => b.score ≤ a.score) := by
  induction l with
  | nil => simp [insertByScore]
  | cons y ys ih =>
    rw [List.pairwise_cons] at h
    unfold insertByScore
    by_cases hlt : y.score < x.score
    · rw [if_pos hlt]
      refine List.pairwise_cons.mpr ⟨?_, List.pairwise_cons.mpr h⟩
      intro z hz
      rcases List.mem_cons.mp hz with rfl | hmem
      · exact le_of_lt hlt
      · exact le_trans (h.1 z hmem) (le_of_lt hlt)
    · rw [if_neg hlt]
      refine List.pairwise_cons.mpr ⟨?_, ih h.2⟩
      intro z hz
      rcases List.mem_cons.mp ((insertByScore_perm x ys).mem_iff.mp hz)
        with rfl | hmem
      · exact le_of_not_lt hlt
      · exact h.1 z hmem

theorem sortByScoreDesc_sorted (l : List Scored) :
    (sortByScoreDesc l).Pairwise (fun a b => b.score ≤ a.score) := by
  induction l with
  | nil => exact List.Pairwise.nil
  | cons x xs ih =>
    rw [sortByScoreDesc, List.foldr_cons]
    exact pairwise_insertByScore x _ ih

theorem mem_scoredOf (s : Store) (m : Matcher) (scope : SearchScope)
    (pattern : String) (x : Scored) :
    x ∈ scoredOf s m scope pattern ↔
      x.key ∈ s.search_keys ∧ s.getEntry x.key = some x.entry ∧
        best_score m scope pattern x.key x.entry = some x.score := by
  unfold scoredOf
  rw [List.mem_filterMap]
  constructor
  · rintro ⟨a, ha, hfa⟩
    cases hg : s.getEntry a with
    | none => rw [hg] at hfa; cases hfa
    | some e =>
      simp only [hg] at hfa
      cases hb : best_score m scope pattern a e with
      | none => exact Option.noConfusion (by simp only [hb] at hfa; exact hfa)
      | some sc =>
        simp only [hb] at hfa
        injection hfa with hfa'
        subst hfa'
        exact ⟨ha, hg, hb⟩
  · rintro ⟨hk, hg, hb⟩
    refine ⟨x.key, hk, ?_⟩
    simp only [hg, hb]

theorem find?_eq_of_mem_nodup (db : List (String × Entry))
    (kv : String × Entry)
    (hwf : (db.map Prod.fst).Nodup) (hmem : kv ∈ db) :
    db.find? (fun x => x.1 == kv.1) = some kv := by
  induction db with
  | nil => cases hmem
  | cons a rest ih =>
    rw [List.map_cons, List.nodup_cons] at hwf
    rcases List.mem_cons.mp hmem with rfl | hmem'
    · rw [List.find?_cons_of_pos _ (by simp)]
    · have hne : a.1 ≠ kv.1 := by
        intro hc
        exact hwf.1 (hc ▸ List.mem_map_of_mem Prod.fst hmem')
      rw [List.find?_cons_of_neg _ (by simp [hne])]
      exact ih hwf.2 hmem'

theorem getEntry_of_mem (s : Store) (kv : String × Entry)
    (hwf : (s.entries.map Prod.fst).Nodup) (hmem : kv ∈ s.entries) :
    s.getEntry kv.1 = some kv.2 := by
  unfold Store.getEntry
  rw [find?_eq_of_mem_nodup s.entries kv hwf hmem]
  rfl

theorem filterMap_length_countP {α β : Type} (f : α → Option β)
    (l : List α) :
    (l.filterMap f).length = l.countP (fun a => (f a).isSome) := by
  induction l with
  | nil => rfl
  | cons a as ih =>
    rw [List.filterMap_cons, List.countP_cons]
    cases hf : f a
    · simp [hf, ih]
    · simp [hf, ih]

/-- **C4.** `search` short-circuits to the empty result on an empty
pattern or zero limit; otherwise it returns at most `limit` results, each
carrying a cached entry with a qualifying fuzzy score under the scope
(key score, maximal tag score, or their maximum, per scope), sorted by
that score in descending order; and whenever `limit` does not truncate,
the results are exactly the qualifying entries of the store. -/
theorem search_spec (s : Store) (m : Matcher) (pattern : String)
    (limit : Nat) (scope : SearchScope) :
    ((pattern = "" ∨ limit = 0) → s.search m pattern limit scope = []) ∧
    (s.search m pattern limit scope).length ≤ limit ∧
    (∀ p ∈ s.search m pattern limit scope,
       s.getEntry p.1 = some p.2 ∧
         (resultScore m scope pattern p).isSome = true) ∧
    ((s.search m pattern limit scope).Pairwise
      (fun p q => ∀ x y : Int, resultScore m scope pattern p = some x →
        resultScore m scope pattern q = some y → y ≤ x)) ∧
    (Store.WFkeys s → pattern ≠ "" → limit ≠ 0 →
      s.entries.countP (qualifies m scope pattern) ≤ limit →
      ∀ kv : String × Entry,
        kv ∈ s.search m pattern limit scope ↔
          kv ∈ s.entries ∧ qualifies m scope pattern kv = true) := by
  by_cases hshort : pattern = "" ∨ limit = 0
  · have hempty : s.search m pattern limit scope = [] := by
      unfold Store.search
      rw [if_pos hshort]
    refine ⟨fun _ => hempty, ?_, ?_, ?_, ?_⟩
    · rw [hempty]; simp
    · rw [hempty]; intro p hp; cases hp
    · rw [hempty]; exact List.Pairwise.nil
    · intro _ hp hl
      rcases hshort with h | h
      · exact absurd h hp
      · exact absurd h hl
  · have hsearch : s.search m pattern limit scope =
        ((sortByScoreDesc (scoredOf s m scope pattern)).take limit).map
          (fun x => (x.key, x.entry)) := by
      unfold Store.search
      rw [if_neg hshort]
    have hsortperm := sortByScoreDesc_perm (scoredOf s m scope pattern)
    have hsorted := sortByScoreDesc_sorted (scoredOf s m scope pattern)
    have hmemtake : ∀ x ∈ (sortByScoreDesc
          (scoredOf s m scope pattern)).take limit,
        x.key ∈ s.search_keys ∧ s.getEntry x.key = some x.entry ∧
          best_score m scope pattern x.key x.entry = some x.score := by
      intro x hx
      exact (mem_scoredOf s m scope pattern x).mp
        (hsortperm.mem_iff.mp ((List.take_sublist _ _).subset hx))
    refine ⟨fun h => absurd h hshort, ?_, ?_, ?_, ?_⟩
    · rw [hsearch, List.length_map, List.length_take]
      exact Nat.min_le_left _ _
    · intro p hp
      rw [hsearch] at hp
      obtain ⟨x, hx, hxp⟩ := List.mem_map.mp hp
      obtain ⟨hk, hg, hb⟩ := hmemtake x hx
      cases hxp
      refine ⟨hg, ?_⟩
      show (best_score m scope pattern x.key x.entry).isSome = true
      rw [hb]
      rfl
    · rw [hsearch, List.pairwise_map]
      apply List.Pairwise.imp_of_mem ?_
        (List.Pairwise.sublist (List.take_sublist _ _) hsorted)
      intro a b ha hb hab x y hx hy
      obtain ⟨_, _, hba⟩ := hmemtake a ha
      obtain ⟨_, _, hbb⟩ := hmemtake b hb
      have hxa : a.score = x := by
        have h1 : resultScore m scope pattern (a.key, a.entry) =
            some a.score := hba
        rw [h1] at hx
        exact Option.some_inj.mp hx
      have hyb : b.score = y := by
        have h1 : resultScore m scope pattern (b.key, b.entry) =
            some b.score := hbb
        rw [h1] at hy
        exact Option.some_inj.mp hy
      omega
    · intro hwf hpat hlim hcount kv
      obtain ⟨hnkeys, hnent, hperm⟩ := hwf
      have hflen : (scoredOf s m scope pattern).length =
          s.entries.countP (qualifies m scope pattern) := by
        unfold scoredOf
        rw [filterMap_length_countP, hperm.countP_eq, List.countP_map]
        apply List.countP_congr
        intro kv' hkv'
        have hg : s.getEntry kv'.1 = some kv'.2 :=
          getEntry_of_mem s kv' hnent hkv'
        show ((match s.getEntry kv'.1 with
              | none => none
              | some e =>
                match best_score m scope pattern kv'.1 e with
                | none => none
                | some sc =>
                  some ({ score := sc, key := kv'.1, entry := e } :
                    Scored)).isSome)
            = true ↔ qualifies m scope pattern kv' = true
        rw [hg]
        unfold qualifies
        cases hb : best_score m scope pattern kv'.1 kv'.2 <;> simp [hb]
      have hslen :
          (sortByScoreDesc (scoredOf s m scope pattern)).length ≤ limit := by
        rw [hsortperm.length_eq, hflen]
        exact hcount
      have htake : (sortByScoreDesc (scoredOf s m scope pattern)).take limit
          = sortByScoreDesc (scoredOf s m scope pattern) :=
        List.take_of_length_le hslen
      rw [hsearch, htake]
      constructor
      · intro hkv
        obtain ⟨x, hx, hxkv⟩ := List.mem_map.mp hkv
        obtain ⟨hk, hg, hb⟩ :=
          (mem_scoredOf s m scope pattern x).mp (hsortperm.mem_iff.mp hx)
        cases hxkv
        constructor
        · unfold Store.getEntry at hg
          cases hf : s.entries.find? (fun kv0 => kv0.1 == x.key) with
          | none => rw [hf] at hg; cases hg
          | some kv1 =>
            rw [hf] at hg
            have hkv1 : kv1.2 = x.entry := by simpa using hg
            have hmem1 := List.mem_of_find?_eq_some hf
            have hkey1 : kv1.1 = x.key := by
              simpa using List.find?_some hf
            have hpair : kv1 = (x.key, x.entry) := by
              cases kv1
              simp only [Prod.mk.injEq]
              exact ⟨hkey1, hkv1⟩
            rw [← hpair]
            exact hmem1
        · show qualifies m scope pattern (x.key, x.entry) = true
          unfold qualifies
          show (best_score m scope pattern x.key x.entry).isSome = true
          rw [hb]
          rfl
      · rintro ⟨hkv, hqual⟩
        unfold qualifies at hqual
        obtain ⟨sc, hsc⟩ := Option.isSome_iff_exists.mp hqual
        apply List.mem_map.mpr
        refine ⟨({ score := sc, key := kv.1, entry := kv.2 } : Scored),
          ?_, rfl⟩
        apply hsortperm.mem_iff.mpr
        apply (mem_scoredOf s m scope pattern _).mpr
        refine ⟨?_, ?_, ?_⟩
        · exact hperm.mem_iff.mpr (List.mem_map_of_mem Prod.fst hkv)
        · exact getEntry_of_mem s kv hnent hkv
        · exact hsc

theorem search_spec_witness :
    Store.WFkeys wStore ∧
    (("a", Entry.new 0 "A" []) ∈
        wStore.search wMatcher "a" 10 SearchScope.all ↔
      ("a", Entry.new 0 "A" []) ∈ wStore.entries ∧
        qualifies wMatcher SearchScope.all "a"
          ("a", Entry.new 0 "A" []) = true) :=
  ⟨⟨by decide, by decide, by decide⟩,
   (search_spec wStore wMatcher "a" 10 SearchScope.all).2.2.2.2
     ⟨by decide, by decide, by decide⟩ (by decide) (by decide) (by decide)
     ("a", Entry.new 0 "A" [])⟩

end Kvstore
